import Mathlib

/-!
Verification of the bounded-parallelism dispatcher from the final variant of
the repository (src/06-before-you-start-a-goroutine/main.go).

The Go code under verification is:

  func restore(repos []string) error {
      errChan := make(chan error, 1)
      sem := make(chan int, 4) // four jobs at once
      var wg sync.WaitGroup
      wg.Add(len(repos))
      for _, repo := range repos {
          go worker(repo, sem, &wg, errChan)
      }
      wg.Wait()
      close(errChan)
      return <-errChan
  }

  func worker(repo string, sem chan int, wg *sync.WaitGroup, errChan chan error) {
      defer wg.Done()
      sem <- 1
      if err := fetch(repo); err != nil {
          select {
          case errChan <- err:
          default:
          }
          // the deferred wg.Done runs after the final receive below
      }
      <-sem
  }

We embed this as a labeled small-step transition system.  One task (goroutine)
per input item runs the worker body; the dispatch loop interleaves spawn steps
with task steps; a scheduler chooses an arbitrary interleaving.  The shared
state is exactly the state of the three channels/primitives:

  * sem     : the number of values buffered in the semaphore channel
              (capacity cap, 4 in the code); a send blocks when sem = cap,
              a receive never blocks here because every receive follows the
              own successful send of the same task;
  * errSlot : the content of the one-slot errChan buffer; the select with a
              default branch stores the error when the buffer is empty and
              discards it otherwise;
  * wgCount : the WaitGroup counter, set to the number of items by
              wg.Add(len(repos)) and decremented by each wg.Done();
  * tasks   : one entry per spawned goroutine: the repo value the goroutine
              was started with (its own copy, bound at go-statement time) and
              its program counter inside the worker body;
  * trace   : the indices of the tasks whose fetch call has run, in the order
              the calls happened (an instrumentation of the work calls).

The work function is modeled as `work : α → Option ε`, `none` standing for a
nil error and `some e` for a non-nil error `e`, matching the signature of fetch.
-/

namespace ConcurrencyMadeEasy

/-- Program counter of one worker goroutine, tracking how far through the
worker body (of src/06-before-you-start-a-goroutine/main.go) it has run. -/
inductive Pc (ε : Type) where
  /-- spawned; the send `sem <- 1` has not happened yet -/
  | idle : Pc ε
  /-- `sem <- 1` done; the call `fetch(repo)` has not happened yet -/
  | running : Pc ε
  /-- fetch returned error `e`; the select send on errChan is pending -/
  | failed : ε → Pc ε
  /-- fetch (and the select, if fetch failed) done; `<-sem` pending -/
  | releasing : Pc ε
  /-- `<-sem` done; the deferred `wg.Done()` is pending -/
  | signaling : Pc ε
  /-- the goroutine has returned -/
  | finished : Pc ε
deriving DecidableEq, Repr

/-- The shared state of one `restore` invocation. -/
structure State (α ε : Type) where
  /-- one entry per spawned goroutine: its own copy of the item, and its pc -/
  tasks : List (α × Pc ε)
  /-- number of values buffered in the semaphore channel `sem` -/
  sem : Nat
  /-- content of the one-slot buffer of `errChan` -/
  errSlot : Option ε
  /-- the WaitGroup counter -/
  wgCount : Nat
  /-- indices of tasks whose work call has run, in order of occurrence -/
  trace : List Nat
deriving DecidableEq, Repr

/-- State at the top of `restore`, after `wg.Add(len(repos))` and before the
dispatch loop: no goroutines yet, empty channels, counter = number of items. -/
def initState {α ε : Type} (items : List α) : State α ε :=
  ⟨[], 0, none, items.length, []⟩

/-- Events of an execution, each tagged with the index of the task (in spawn
order) it belongs to. -/
inductive Label where
  /-- the dispatch loop runs `go worker(repos[i], ...)` -/
  | spawn : Nat → Label
  /-- task i completes its send `sem <- 1` -/
  | acquire : Nat → Label
  /-- task i runs `fetch(repo)` -/
  | runWork : Nat → Label
  /-- task i runs the select that tries to send its error on errChan -/
  | report : Nat → Label
  /-- task i completes its receive `<-sem` -/
  | release : Nat → Label
  /-- task i runs its deferred `wg.Done()` -/
  | signal : Nat → Label
deriving DecidableEq, Repr

/-- The task index an event belongs to. -/
def Label.idx : Label → Nat
  | .spawn i => i
  | .acquire i => i
  | .runWork i => i
  | .report i => i
  | .release i => i
  | .signal i => i

/-- One interleaving step of the system: either the dispatch loop spawns the
next goroutine, or one existing goroutine advances by one instruction of the
worker body.  `items` are the inputs, `cap` the semaphore capacity (4 in the
code), `work` the fetch function. -/
inductive Step {α ε : Type} (items : List α) (cap : Nat) (work : α → Option ε) :
    State α ε → Label → State α ε → Prop where
  /-- `go worker(repo, ...)`: the loop body starts goroutine number
  `tasks.length` with its own copy of the current item.  Never blocks. -/
  | spawn (s : State α ε) (h : s.tasks.length < items.length) :
      Step items cap work s (.spawn s.tasks.length)
        { s with tasks := s.tasks ++ [(items.get ⟨s.tasks.length, h⟩, Pc.idle)] }
  /-- `sem <- 1`: enabled only while the buffer holds fewer than `cap`
  values; buffers one more value. -/
  | acquire (s : State α ε) (i : Nat) (a : α)
      (ht : s.tasks[i]? = some (a, Pc.idle)) (hsem : s.sem < cap) :
      Step items cap work s (.acquire i)
        { s with tasks := s.tasks.set i (a, Pc.running), sem := s.sem + 1 }
  /-- `fetch(repo)`: always enabled; moves to `releasing` on nil error and to
  `failed e` on error `e`; the call is recorded in the trace. -/
  | runWork (s : State α ε) (i : Nat) (a : α)
      (ht : s.tasks[i]? = some (a, Pc.running)) :
      Step items cap work s (.runWork i)
        { s with
          tasks := s.tasks.set i (a, match work a with
            | none => Pc.releasing
            | some e => Pc.failed e),
          trace := s.trace ++ [i] }
  /-- `select { case errChan <- err: default: }`: always enabled; stores the
  error when the slot is empty and discards it otherwise. -/
  | report (s : State α ε) (i : Nat) (a : α) (e : ε)
      (ht : s.tasks[i]? = some (a, Pc.failed e)) :
      Step items cap work s (.report i)
        { s with tasks := s.tasks.set i (a, Pc.releasing),
                 errSlot := some (s.errSlot.getD e) }
  /-- `<-sem`: always enabled for the task itself (its own earlier send put a
  value in the buffer); removes one buffered value. -/
  | release (s : State α ε) (i : Nat) (a : α)
      (ht : s.tasks[i]? = some (a, Pc.releasing)) :
      Step items cap work s (.release i)
        { s with tasks := s.tasks.set i (a, Pc.signaling), sem := s.sem - 1 }
  /-- the deferred `wg.Done()`: always enabled; decrements the counter. -/
  | signal (s : State α ε) (i : Nat) (a : α)
      (ht : s.tasks[i]? = some (a, Pc.signaling)) :
      Step items cap work s (.signal i)
        { s with tasks := s.tasks.set i (a, Pc.finished), wgCount := s.wgCount - 1 }

/-- A finite execution fragment: the list of labels of the steps taken from
the first state to the last. -/
inductive Path {α ε : Type} (items : List α) (cap : Nat) (work : α → Option ε) :
    State α ε → List Label → State α ε → Prop where
  | nil (s : State α ε) : Path items cap work s [] s
  | cons {s₁ s₂ s₃ : State α ε} {l : Label} {ls : List Label}
      (hstep : Step items cap work s₁ l s₂)
      (hrest : Path items cap work s₂ ls s₃) :
      Path items cap work s₁ (l :: ls) s₃

/-- A state is reachable when some interleaving of `restore items` reaches
it from the initial state. -/
def Reachable {α ε : Type} (items : List α) (cap : Nat) (work : α → Option ε)
    (s : State α ε) : Prop :=
  ∃ ls, Path items cap work (initState items) ls s

/-- The point at which `wg.Wait()` has returned and `restore` is about to
return: every goroutine was spawned and has run to completion. -/
def Final {α ε : Type} (items : List α) (s : State α ε) : Prop :=
  s.tasks.length = items.length ∧ ∀ t ∈ s.tasks, t.2 = Pc.finished

/-- `restore items` can return `r` (with `none` standing for a nil error):
some complete interleaving ends with `r` in the errChan buffer, which is what
`return <-errChan` yields after `close(errChan)`. -/
def Returns {α ε : Type} (items : List α) (cap : Nat) (work : α → Option ε)
    (r : Option ε) : Prop :=
  ∃ ls s, Path items cap work (initState items) ls s ∧ Final items s ∧ s.errSlot = r

/-- A task in one of these pc states has sent on `sem` and not yet received
from it: it holds one of the `cap` slots of the gate. -/
def holdsGate {ε : Type} : Pc ε → Bool
  | Pc.running => true
  | Pc.failed _ => true
  | Pc.releasing => true
  | _ => false

/-- A task in one of these pc states has already run its work call. -/
def workDone {ε : Type} : Pc ε → Bool
  | Pc.idle => false
  | Pc.running => false
  | _ => true

/-- A task in one of these pc states is past the select on errChan: if its
work call failed, the error has already been offered to the latch. -/
def reported {ε : Type} : Pc ε → Bool
  | Pc.releasing => true
  | Pc.signaling => true
  | Pc.finished => true
  | _ => false

/-- A task whose goroutine has returned. -/
def isFinished {ε : Type} : Pc ε → Bool
  | Pc.finished => true
  | _ => false

/-- Number of tasks currently holding a gate slot. -/
def holdersCount {α ε : Type} (s : State α ε) : Nat :=
  s.tasks.countP (fun t => holdsGate t.2)

/-- Number of tasks whose goroutine has returned. -/
def finishedCount {α ε : Type} (s : State α ε) : Nat :=
  s.tasks.countP (fun t => isFinished t.2)

/-- How far through the worker body a pc is; every step of a task strictly
increases it. -/
def stage {ε : Type} : Pc ε → Nat
  | Pc.idle => 0
  | Pc.running => 1
  | Pc.failed _ => 2
  | Pc.releasing => 3
  | Pc.signaling => 4
  | Pc.finished => 5

/-- The stage of task i, or `none` when the dispatch loop has not spawned
task i yet. -/
def stageAt {α ε : Type} (s : State α ε) (i : Nat) : Option Nat :=
  (s.tasks[i]?).map (fun t => stage t.2)

/-- Reading any position of a list after a `set`. -/
theorem getq_set {β : Type} (l : List β) (i j : Nat) (b : β) (h : i < l.length) :
    (l.set i b)[j]? = if j = i then some b else l[j]? := by
  by_cases hji : j = i
  · subst hji; simp [List.getElem?_set_self h]
  · simp [hji, List.getElem?_set_ne (fun he => hji he.symm)]

/-- How `countP` changes when one position of a list is overwritten. -/
theorem countP_set {β : Type} (p : β → Bool) (l : List β) (i : Nat) (b₀ b : β)
    (h : l[i]? = some b₀) :
    (l.set i b).countP p + (if p b₀ then 1 else 0) =
      l.countP p + (if p b then 1 else 0) := by
  induction l generalizing i with
  | nil => simp at h
  | cons hd tl ih =>
    cases i with
    | zero =>
      simp at h
      subst h
      simp [List.countP_cons]
      omega
    | succ k =>
      simp at h
      have := ih k h
      simp [List.countP_cons]
      omega

/-- How the sum of a mapped list changes when one position is overwritten. -/
theorem sumMap_set {β : Type} (f : β → Nat) (l : List β) (i : Nat) (b₀ b : β)
    (h : l[i]? = some b₀) :
    ((l.set i b).map f).sum + f b₀ = (l.map f).sum + f b := by
  induction l generalizing i with
  | nil => simp at h
  | cons hd tl ih =>
    cases i with
    | zero =>
      simp at h
      subst h
      simp
      omega
    | succ k =>
      simp at h
      have := ih k h
      simp [List.map_set] at this ⊢
      omega

/-- Occurrence counts in `List.range`. -/
theorem count_range (a n : Nat) :
    (List.range n).count a = if a < n then 1 else 0 := by
  induction n with
  | zero => simp
  | succ k ih =>
    rw [List.range_succ, List.count_append]
    by_cases h : a < k
    · simp [ih, h, Nat.lt_succ_of_lt h, List.count_singleton]
      omega
    · by_cases h2 : a = k
      · subst h2; simp [ih, h]
      · have h3 : ¬ a < k + 1 := by omega
        simp [ih, h, h3, List.count_singleton]
        omega

/-- The inductive invariant of the system, tying the channel buffers to the
task states.  `semEq` says the semaphore buffer holds exactly one value per
gate holder; `wgEq` says the WaitGroup counter is exactly the number of
goroutines still running; `traceCount` says the work call of each task has run
exactly once as soon as its pc is past `running`, and not before; the two
`err` fields say the errChan slot is occupied exactly by an error some work
call produced and only tasks whose work succeeded can be past the select
while the slot is still empty. -/
structure Inv {α ε : Type} (items : List α) (cap : Nat) (work : α → Option ε)
    (s : State α ε) : Prop where
  tasksLen : s.tasks.length ≤ items.length
  itemBound : ∀ (i : Nat) (a : α) (pc : Pc ε),
    s.tasks[i]? = some (a, pc) → items[i]? = some a
  semEq : s.sem = holdersCount s
  semLe : s.sem ≤ cap
  wgEq : s.wgCount + finishedCount s = items.length
  traceCount : ∀ (i : Nat) (a : α) (pc : Pc ε), s.tasks[i]? = some (a, pc) →
    s.trace.count i = (if workDone pc then 1 else 0)
  traceMem : ∀ i ∈ s.trace, i < s.tasks.length
  failedWork : ∀ (i : Nat) (a : α) (e : ε),
    s.tasks[i]? = some (a, Pc.failed e) → work a = some e
  errNone : s.errSlot = none → ∀ (i : Nat) (a : α) (pc : Pc ε),
    s.tasks[i]? = some (a, pc) → reported pc = true → work a = none
  errSome : ∀ (e : ε), s.errSlot = some e → ∃ a ∈ items, work a = some e

/-- A successful indexed lookup implies the index is in range. -/
theorem getq_lt {β : Type} {l : List β} {i : Nat} {b : β} (h : l[i]? = some b) :
    i < l.length :=
  (List.getElem?_eq_some.mp h).1

/-- Reading a list extended by one element on the right. -/
theorem getq_concat {β : Type} (l : List β) (v : β) (j : Nat) :
    (l ++ [v])[j]? = if j < l.length then l[j]? else if j = l.length then some v else none := by
  by_cases h1 : j < l.length
  · simp [h1, List.getElem?_append_left h1]
  · by_cases h2 : j = l.length
    · subst h2; simp [h1, List.getElem?_concat_length]
    · have : (l ++ [v]).length ≤ j := by simp; omega
      simp [h1, h2, List.getElem?_eq_none this]

/-- The per-task item binding is preserved when only the pc of a task changes. -/
theorem itemBound_set {α ε : Type} {items : List α} {tasks : List (α × Pc ε)}
    {i : Nat} {a : α} {pcOld : Pc ε} (pcNew : Pc ε)
    (ht : tasks[i]? = some (a, pcOld))
    (hib : ∀ (j : Nat) (b : α) (pc : Pc ε), tasks[j]? = some (b, pc) → items[j]? = some b) :
    ∀ (j : Nat) (b : α) (pc : Pc ε),
      (tasks.set i (a, pcNew))[j]? = some (b, pc) → items[j]? = some b := by
  intro j b pc hj
  rw [getq_set _ _ _ _ (getq_lt ht)] at hj
  by_cases hji : j = i
  · rw [if_pos hji] at hj
    obtain ⟨hb, _⟩ := Prod.mk.injEq .. ▸ (Option.some.injEq .. ▸ hj)
    subst hji
    exact hb ▸ hib j a pcOld ht
  · rw [if_neg hji] at hj
    exact hib j b pc hj

/-- The work-call trace bookkeeping is preserved by a pc change that does not
cross the work call. -/
theorem traceCount_set {α ε : Type} {tasks : List (α × Pc ε)} {trace : List Nat}
    {i : Nat} {a : α} {pcOld : Pc ε} (pcNew : Pc ε)
    (ht : tasks[i]? = some (a, pcOld))
    (hwd : workDone pcOld = workDone pcNew)
    (htc : ∀ (j : Nat) (b : α) (pc : Pc ε), tasks[j]? = some (b, pc) →
      trace.count j = (if workDone pc then 1 else 0)) :
    ∀ (j : Nat) (b : α) (pc : Pc ε), (tasks.set i (a, pcNew))[j]? = some (b, pc) →
      trace.count j = (if workDone pc then 1 else 0) := by
  intro j b pc hj
  rw [getq_set _ _ _ _ (getq_lt ht)] at hj
  by_cases hji : j = i
  · rw [if_pos hji] at hj
    obtain ⟨_, hpc⟩ := Prod.mk.injEq .. ▸ (Option.some.injEq .. ▸ hj)
    subst hji
    rw [← hpc, ← hwd]
    exact htc j a pcOld ht
  · rw [if_neg hji] at hj
    exact htc j b pc hj

/-- The failed-pc bookkeeping is preserved when the new pc is not `failed`. -/
theorem failedWork_set {α ε : Type} {work : α → Option ε} {tasks : List (α × Pc ε)}
    {i : Nat} {a : α} {pcOld : Pc ε} (pcNew : Pc ε)
    (ht : tasks[i]? = some (a, pcOld))
    (hnf : ∀ e : ε, pcNew ≠ Pc.failed e)
    (hfw : ∀ (j : Nat) (b : α) (e : ε), tasks[j]? = some (b, Pc.failed e) → work b = some e) :
    ∀ (j : Nat) (b : α) (e : ε), (tasks.set i (a, pcNew))[j]? = some (b, Pc.failed e) →
      work b = some e := by
  intro j b e hj
  rw [getq_set _ _ _ _ (getq_lt ht)] at hj
  by_cases hji : j = i
  · rw [if_pos hji] at hj
    obtain ⟨_, hpc⟩ := Prod.mk.injEq .. ▸ (Option.some.injEq .. ▸ hj)
    exact absurd hpc (hnf e)
  · rw [if_neg hji] at hj
    exact hfw j b e hj

/-- The empty-slot side of the latch invariant is preserved by a pc change
whose target is only reported when the old pc was, or when the work call in
fact succeeded. -/
theorem errNone_set {α ε : Type} {work : α → Option ε} {tasks : List (α × Pc ε)}
    {i : Nat} {a : α} {pcOld : Pc ε} (pcNew : Pc ε)
    (ht : tasks[i]? = some (a, pcOld))
    (hcase : reported pcNew = true → work a = none ∨ reported pcOld = true)
    (hen : ∀ (j : Nat) (b : α) (pc : Pc ε), tasks[j]? = some (b, pc) →
      reported pc = true → work b = none) :
    ∀ (j : Nat) (b : α) (pc : Pc ε), (tasks.set i (a, pcNew))[j]? = some (b, pc) →
      reported pc = true → work b = none := by
  intro j b pc hj hr
  rw [getq_set _ _ _ _ (getq_lt ht)] at hj
  by_cases hji : j = i
  · rw [if_pos hji] at hj
    obtain ⟨hb, hpc⟩ := Prod.mk.injEq .. ▸ (Option.some.injEq .. ▸ hj)
    subst hji
    rw [← hpc] at hr
    rcases hcase hr with hc | hc
    · rw [← hb]; exact hc
    · rw [← hb]; exact hen j a pcOld ht hc
  · rw [if_neg hji] at hj
    exact hen j b pc hj hr

/-- The initial state satisfies the invariant. -/
theorem inv_init {α ε : Type} (items : List α) (cap : Nat) (work : α → Option ε) :
    Inv items cap work (initState items : State α ε) := by
  constructor <;> simp [initState, holdersCount, finishedCount]

/-- Every step of the system preserves the invariant. -/
theorem inv_step {α ε : Type} {items : List α} {cap : Nat} {work : α → Option ε}
    {s : State α ε} {l : Label} {s₂ : State α ε}
    (hinv : Inv items cap work s) (hstep : Step items cap work s l s₂) :
    Inv items cap work s₂ := by
  obtain ⟨hlen, hib, hsemEq, hsemLe, hwg, htc, htm, hfw, hen, hes⟩ := hinv
  cases hstep with
  | spawn hn =>
    refine ⟨?_, ?_, ?_, hsemLe, ?_, ?_, ?_, ?_, ?_, hes⟩
    · simp; omega
    · intro j b pc hj
      rw [getq_concat] at hj
      by_cases h1 : j < s.tasks.length
      · rw [if_pos h1] at hj; exact hib j b pc hj
      · by_cases h2 : j = s.tasks.length
        · rw [if_neg h1, if_pos h2] at hj
          obtain ⟨hb, _⟩ := Prod.mk.injEq .. ▸ (Option.some.injEq .. ▸ hj)
          subst h2
          rw [← hb]
          simp [List.getElem?_eq_getElem hn]
        · rw [if_neg h1, if_neg h2] at hj; exact absurd hj (by simp)
    · simpa [holdersCount, List.countP_append, holdsGate] using hsemEq
    · simpa [finishedCount, List.countP_append, isFinished] using hwg
    · intro j b pc hj
      rw [getq_concat] at hj
      by_cases h1 : j < s.tasks.length
      · rw [if_pos h1] at hj; exact htc j b pc hj
      · by_cases h2 : j = s.tasks.length
        · rw [if_neg h1, if_pos h2] at hj
          obtain ⟨_, hpc⟩ := Prod.mk.injEq .. ▸ (Option.some.injEq .. ▸ hj)
          rw [← hpc]
          simp [workDone]
          exact List.count_eq_zero.mpr (fun hmem => absurd (htm j hmem) (by omega))
        · rw [if_neg h1, if_neg h2] at hj; exact absurd hj (by simp)
    · intro j hj
      have := htm j hj
      simp
      omega
    · intro j b e hj
      rw [getq_concat] at hj
      by_cases h1 : j < s.tasks.length
      · rw [if_pos h1] at hj; exact hfw j b e hj
      · by_cases h2 : j = s.tasks.length
        · rw [if_neg h1, if_pos h2] at hj; simp at hj
        · rw [if_neg h1, if_neg h2] at hj; exact absurd hj (by simp)
    · intro h0 j b pc hj hr
      rw [getq_concat] at hj
      by_cases h1 : j < s.tasks.length
      · rw [if_pos h1] at hj; exact hen h0 j b pc hj hr
      · by_cases h2 : j = s.tasks.length
        · rw [if_neg h1, if_pos h2] at hj
          obtain ⟨_, hpc⟩ := Prod.mk.injEq .. ▸ (Option.some.injEq .. ▸ hj)
          rw [← hpc] at hr
          simp [reported] at hr
        · rw [if_neg h1, if_neg h2] at hj; exact absurd hj (by simp)
  | acquire i a ht hsem =>
    have hlt := getq_lt ht
    refine ⟨?_, itemBound_set _ ht hib, ?_, ?_, ?_,
      traceCount_set _ ht rfl htc, ?_,
      failedWork_set _ ht (fun e h => Pc.noConfusion h) hfw,
      ?_, hes⟩
    · simpa using hlen
    · have hse : s.sem = s.tasks.countP (fun t => holdsGate t.2) := hsemEq
      have hc : (s.tasks.set i (a, Pc.running)).countP (fun t => holdsGate t.2) + 0 =
          s.tasks.countP (fun t => holdsGate t.2) + 1 :=
        countP_set _ s.tasks i (a, Pc.idle) (a, Pc.running) ht
      show s.sem + 1 = (s.tasks.set i (a, Pc.running)).countP (fun t => holdsGate t.2)
      omega
    · show s.sem + 1 ≤ cap
      omega
    · have hfe : s.wgCount + s.tasks.countP (fun t => isFinished t.2) = items.length := hwg
      have hc : (s.tasks.set i (a, Pc.running)).countP (fun t => isFinished t.2) + 0 =
          s.tasks.countP (fun t => isFinished t.2) + 0 :=
        countP_set _ s.tasks i (a, Pc.idle) (a, Pc.running) ht
      show s.wgCount + (s.tasks.set i (a, Pc.running)).countP (fun t => isFinished t.2) = items.length
      omega
    · intro j hj
      have := htm j hj
      simpa using this
    · intro h0
      exact errNone_set _ ht (fun hr => by simp [reported] at hr) (hen h0)
  | runWork i a ht =>
    have hlt := getq_lt ht
    rcases hw : work a with _ | e <;> simp only [hw]
    · refine ⟨?_, itemBound_set _ ht hib, ?_, hsemLe, ?_, ?_, ?_,
        failedWork_set _ ht (fun e h => Pc.noConfusion h) hfw,
        ?_, hes⟩
      · simpa using hlen
      · have hse : s.sem = s.tasks.countP (fun t => holdsGate t.2) := hsemEq
        have hc : (s.tasks.set i (a, Pc.releasing)).countP (fun t => holdsGate t.2) + 1 =
            s.tasks.countP (fun t => holdsGate t.2) + 1 :=
          countP_set _ s.tasks i (a, Pc.running) (a, Pc.releasing) ht
        show s.sem = (s.tasks.set i (a, Pc.releasing)).countP (fun t => holdsGate t.2)
        omega
      · have hfe : s.wgCount + s.tasks.countP (fun t => isFinished t.2) = items.length := hwg
        have hc : (s.tasks.set i (a, Pc.releasing)).countP (fun t => isFinished t.2) + 0 =
            s.tasks.countP (fun t => isFinished t.2) + 0 :=
          countP_set _ s.tasks i (a, Pc.running) (a, Pc.releasing) ht
        show s.wgCount + (s.tasks.set i (a, Pc.releasing)).countP (fun t => isFinished t.2) = items.length
        omega
      · intro j b pc hj
        rw [getq_set _ _ _ _ hlt] at hj
        rw [List.count_append]
        by_cases hji : j = i
        · rw [if_pos hji] at hj
          obtain ⟨_, hpc⟩ := Prod.mk.injEq .. ▸ (Option.some.injEq .. ▸ hj)
          subst hji
          have h0 := htc j a Pc.running ht
          simp [workDone] at h0
          rw [← hpc]
          simp [workDone, h0]
        · rw [if_neg hji] at hj
          have := htc j b pc hj
          simp [List.count_singleton, hji]
          exact this
      · intro j hj
        rcases List.mem_append.mp hj with hj2 | hj2
        · have := htm j hj2
          simpa using this
        · simp at hj2
          subst hj2
          simpa using hlt
      · intro h0
        exact errNone_set _ ht (fun _ => Or.inl hw) (hen h0)
    · refine ⟨?_, itemBound_set _ ht hib, ?_, hsemLe, ?_, ?_, ?_, ?_, ?_, hes⟩
      · simpa using hlen
      · have hse : s.sem = s.tasks.countP (fun t => holdsGate t.2) := hsemEq
        have hc : (s.tasks.set i (a, Pc.failed e)).countP (fun t => holdsGate t.2) + 1 =
            s.tasks.countP (fun t => holdsGate t.2) + 1 :=
          countP_set _ s.tasks i (a, Pc.running) (a, Pc.failed e) ht
        show s.sem = (s.tasks.set i (a, Pc.failed e)).countP (fun t => holdsGate t.2)
        omega
      · have hfe : s.wgCount + s.tasks.countP (fun t => isFinished t.2) = items.length := hwg
        have hc : (s.tasks.set i (a, Pc.failed e)).countP (fun t => isFinished t.2) + 0 =
            s.tasks.countP (fun t => isFinished t.2) + 0 :=
          countP_set _ s.tasks i (a, Pc.running) (a, Pc.failed e) ht
        show s.wgCount + (s.tasks.set i (a, Pc.failed e)).countP (fun t => isFinished t.2) = items.length
        omega
      · intro j b pc hj
        rw [getq_set _ _ _ _ hlt] at hj
        rw [List.count_append]
        by_cases hji : j = i
        · rw [if_pos hji] at hj
          obtain ⟨_, hpc⟩ := Prod.mk.injEq .. ▸ (Option.some.injEq .. ▸ hj)
          subst hji
          have h0 := htc j a Pc.running ht
          simp [workDone] at h0
          rw [← hpc]
          simp [workDone, h0]
        · rw [if_neg hji] at hj
          have := htc j b pc hj
          simp [List.count_singleton, hji]
          exact this
      · intro j hj
        rcases List.mem_append.mp hj with hj2 | hj2
        · have := htm j hj2
          simpa using this
        · simp at hj2
          subst hj2
          simpa using hlt
      · intro j b e2 hj
        rw [getq_set _ _ _ _ hlt] at hj
        by_cases hji : j = i
        · rw [if_pos hji] at hj
          simp only [Option.some.injEq, Prod.mk.injEq, Pc.failed.injEq] at hj
          obtain ⟨hb, he⟩ := hj
          rw [← hb, hw, he]
        · rw [if_neg hji] at hj
          exact hfw j b e2 hj
      · intro h0
        exact errNone_set _ ht (fun hr => by simp [reported] at hr) (hen h0)
  | report i a e ht =>
    have hlt := getq_lt ht
    refine ⟨?_, itemBound_set _ ht hib, ?_, hsemLe, ?_,
      traceCount_set _ ht rfl htc, ?_,
      failedWork_set _ ht (fun e2 h => Pc.noConfusion h) hfw,
      ?_, ?_⟩
    · simpa using hlen
    · have hse : s.sem = s.tasks.countP (fun t => holdsGate t.2) := hsemEq
      have hc : (s.tasks.set i (a, Pc.releasing)).countP (fun t => holdsGate t.2) + 1 =
          s.tasks.countP (fun t => holdsGate t.2) + 1 :=
        countP_set _ s.tasks i (a, Pc.failed e) (a, Pc.releasing) ht
      show s.sem = (s.tasks.set i (a, Pc.releasing)).countP (fun t => holdsGate t.2)
      omega
    · have hfe : s.wgCount + s.tasks.countP (fun t => isFinished t.2) = items.length := hwg
      have hc : (s.tasks.set i (a, Pc.releasing)).countP (fun t => isFinished t.2) + 0 =
          s.tasks.countP (fun t => isFinished t.2) + 0 :=
        countP_set _ s.tasks i (a, Pc.failed e) (a, Pc.releasing) ht
      show s.wgCount + (s.tasks.set i (a, Pc.releasing)).countP (fun t => isFinished t.2) = items.length
      omega
    · intro j hj
      have := htm j hj
      simpa using this
    · intro h0
      exact absurd h0 (by simp)
    · intro e2 he2
      simp only [Option.some.injEq] at he2
      cases hsl : s.errSlot with
      | none =>
        rw [hsl] at he2
        simp at he2
        refine ⟨a, List.getElem?_mem (hib i a (Pc.failed e) ht), ?_⟩
        rw [← he2]
        exact hfw i a e ht
      | some e1 =>
        rw [hsl] at he2
        simp at he2
        exact he2 ▸ hes e1 hsl
  | release i a ht =>
    have hlt := getq_lt ht
    refine ⟨?_, itemBound_set _ ht hib, ?_, ?_, ?_,
      traceCount_set _ ht rfl htc, ?_,
      failedWork_set _ ht (fun e h => Pc.noConfusion h) hfw,
      ?_, hes⟩
    · simpa using hlen
    · have hse : s.sem = s.tasks.countP (fun t => holdsGate t.2) := hsemEq
      have hc : (s.tasks.set i (a, Pc.signaling)).countP (fun t => holdsGate t.2) + 1 =
          s.tasks.countP (fun t => holdsGate t.2) + 0 :=
        countP_set _ s.tasks i (a, Pc.releasing) (a, Pc.signaling) ht
      show s.sem - 1 = (s.tasks.set i (a, Pc.signaling)).countP (fun t => holdsGate t.2)
      omega
    · show s.sem - 1 ≤ cap
      omega
    · have hfe : s.wgCount + s.tasks.countP (fun t => isFinished t.2) = items.length := hwg
      have hc : (s.tasks.set i (a, Pc.signaling)).countP (fun t => isFinished t.2) + 0 =
          s.tasks.countP (fun t => isFinished t.2) + 0 :=
        countP_set _ s.tasks i (a, Pc.releasing) (a, Pc.signaling) ht
      show s.wgCount + (s.tasks.set i (a, Pc.signaling)).countP (fun t => isFinished t.2) = items.length
      omega
    · intro j hj
      have := htm j hj
      simpa using this
    · intro h0
      exact errNone_set _ ht (fun _ => Or.inr rfl) (hen h0)
  | signal i a ht =>
    have hlt := getq_lt ht
    refine ⟨?_, itemBound_set _ ht hib, ?_, hsemLe, ?_,
      traceCount_set _ ht rfl htc, ?_,
      failedWork_set _ ht (fun e h => Pc.noConfusion h) hfw,
      ?_, hes⟩
    · simpa using hlen
    · have hse : s.sem = s.tasks.countP (fun t => holdsGate t.2) := hsemEq
      have hc : (s.tasks.set i (a, Pc.finished)).countP (fun t => holdsGate t.2) + 0 =
          s.tasks.countP (fun t => holdsGate t.2) + 0 :=
        countP_set _ s.tasks i (a, Pc.signaling) (a, Pc.finished) ht
      show s.sem = (s.tasks.set i (a, Pc.finished)).countP (fun t => holdsGate t.2)
      omega
    · have hfe : s.wgCount + s.tasks.countP (fun t => isFinished t.2) = items.length := hwg
      have hc : (s.tasks.set i (a, Pc.finished)).countP (fun t => isFinished t.2) + 0 =
          s.tasks.countP (fun t => isFinished t.2) + 1 :=
        countP_set _ s.tasks i (a, Pc.signaling) (a, Pc.finished) ht
      have hfin : s.tasks.countP (fun t => isFinished t.2) < s.tasks.length := by
        by_contra hcon
        have heq : s.tasks.countP (fun t => isFinished t.2) = s.tasks.length :=
          Nat.le_antisymm (List.countP_le_length _) (Nat.not_lt.mp hcon)
        have := List.countP_eq_length.mp heq (a, Pc.signaling) (List.getElem?_mem ht)
        simp [isFinished] at this
      show s.wgCount - 1 + (s.tasks.set i (a, Pc.finished)).countP (fun t => isFinished t.2) = items.length
      omega
    · intro j hj
      have := htm j hj
      simpa using this
    · intro h0
      exact errNone_set _ ht (fun _ => Or.inr rfl) (hen h0)

/-- The invariant holds along any execution fragment. -/
theorem path_inv {α ε : Type} {items : List α} {cap : Nat} {work : α → Option ε}
    {s : State α ε} {ls : List Label} {s₂ : State α ε}
    (hinv : Inv items cap work s) (hp : Path items cap work s ls s₂) :
    Inv items cap work s₂ := by
  induction hp with
  | nil _ => exact hinv
  | cons hstep _ ih => exact ih (inv_step hinv hstep)

/-- Every reachable state satisfies the invariant. -/
theorem reachable_inv {α ε : Type} {items : List α} {cap : Nat} {work : α → Option ε}
    {s : State α ε} (h : Reachable items cap work s) : Inv items cap work s := by
  obtain ⟨ls, hp⟩ := h
  exact path_inv (inv_init items cap work) hp

/-- Splitting an execution fragment at a point of its label list. -/
theorem path_append_split {α ε : Type} {items : List α} {cap : Nat}
    {work : α → Option ε} {s : State α ε} {ls₁ ls₂ : List Label} {s₂ : State α ε}
    (hp : Path items cap work s (ls₁ ++ ls₂) s₂) :
    ∃ sm, Path items cap work s ls₁ sm ∧ Path items cap work sm ls₂ s₂ := by
  induction ls₁ generalizing s with
  | nil => exact ⟨s, Path.nil s, hp⟩
  | cons l ls ih =>
    cases hp with
    | cons hstep hrest =>
      obtain ⟨sm, h1, h2⟩ := ih hrest
      exact ⟨sm, Path.cons hstep h1, h2⟩

/-- From any reachable state that is not yet final, some step is enabled:
the system never deadlocks.  When every unfinished goroutine is still blocked
on `sem <- 1`, no goroutine holds a slot, so the buffer is empty and a send
is possible because the capacity is at least 1. -/
theorem progress {α ε : Type} {items : List α} {cap : Nat} {work : α → Option ε}
    {s : State α ε} (hcap : 1 ≤ cap) (hinv : Inv items cap work s)
    (hnf : ¬ Final items s) :
    ∃ l s₂, Step items cap work s l s₂ := by
  by_cases hsp : s.tasks.length < items.length
  · exact ⟨_, _, Step.spawn s hsp⟩
  · have hlen : s.tasks.length = items.length :=
      Nat.le_antisymm hinv.tasksLen (Nat.not_lt.mp hsp)
    have hex : ∃ t ∈ s.tasks, t.2 ≠ Pc.finished := by
      by_contra hall
      push_neg at hall
      exact hnf ⟨hlen, hall⟩
    obtain ⟨t, htmem, htnf⟩ := hex
    obtain ⟨⟨i, hilt⟩, hti⟩ := List.mem_iff_get.mp htmem
    have hti2 : s.tasks[i]? = some t := by
      rw [List.getElem?_eq_getElem hilt]
      exact congrArg some hti
    by_cases hx : ∃ (j : Nat) (b : α) (pc : Pc ε),
        s.tasks[j]? = some (b, pc) ∧ pc ≠ Pc.idle ∧ pc ≠ Pc.finished
    · obtain ⟨j, b, pc, hj, h1, h2⟩ := hx
      cases pc with
      | idle => exact absurd rfl h1
      | running => exact ⟨_, _, Step.runWork s j b hj⟩
      | failed e => exact ⟨_, _, Step.report s j b e hj⟩
      | releasing => exact ⟨_, _, Step.release s j b hj⟩
      | signaling => exact ⟨_, _, Step.signal s j b hj⟩
      | finished => exact absurd rfl h2
    · push_neg at hx
      have hidle : t.2 = Pc.idle := by
        by_contra hn2
        exact htnf (hx i t.1 t.2 (by rw [hti2]) hn2)
      have hzero : s.tasks.countP (fun u => holdsGate u.2) = 0 := by
        apply List.countP_eq_zero.mpr
        intro u hu
        obtain ⟨⟨j, hjlt⟩, hju⟩ := List.mem_iff_get.mp hu
        have hju2 : s.tasks[j]? = some u := by
          rw [List.getElem?_eq_getElem hjlt]
          exact congrArg some hju
        by_cases hji : u.2 = Pc.idle
        · rw [hji]
          simp [holdsGate]
        · have := hx j u.1 u.2 (by rw [hju2]) hji
          rw [this]
          simp [holdsGate]
      have hsem0 : s.sem = 0 := by
        have := hinv.semEq
        unfold holdersCount at this
        omega
      refine ⟨_, _, Step.acquire s i t.1 ?_ ?_⟩
      · rw [hti2]
        rw [show t = (t.1, t.2) from rfl, hidle]
      · omega

/-- How many worker-body instructions one goroutine still has to run. -/
def pcWeight {ε : Type} : Pc ε → Nat
  | Pc.idle => 5
  | Pc.running => 4
  | Pc.failed _ => 3
  | Pc.releasing => 2
  | Pc.signaling => 1
  | Pc.finished => 0

/-- Total number of instructions the whole system still has to run; every
step strictly decreases it, so every execution terminates. -/
def potential {α ε : Type} (items : List α) (s : State α ε) : Nat :=
  (items.length - s.tasks.length) * 6 + (s.tasks.map (fun t => pcWeight t.2)).sum

/-- Every step strictly decreases the potential. -/
theorem step_potential {α ε : Type} {items : List α} {cap : Nat}
    {work : α → Option ε} {s : State α ε} {l : Label} {s₂ : State α ε}
    (hstep : Step items cap work s l s₂) :
    potential items s₂ < potential items s := by
  cases hstep with
  | spawn hn =>
    unfold potential
    simp [pcWeight]
    omega
  | acquire i a ht hsem =>
    have hs : ((s.tasks.set i (a, Pc.running)).map (fun t => pcWeight t.2)).sum + 5 =
        (s.tasks.map (fun t => pcWeight t.2)).sum + 4 :=
      sumMap_set _ s.tasks i (a, Pc.idle) (a, Pc.running) ht
    unfold potential
    simp only [List.length_set]
    omega
  | runWork i a ht =>
    rcases hw : work a with _ | e <;> simp only [hw]
    · have hs : ((s.tasks.set i (a, Pc.releasing)).map (fun t => pcWeight t.2)).sum + 4 =
          (s.tasks.map (fun t => pcWeight t.2)).sum + 2 :=
        sumMap_set _ s.tasks i (a, Pc.running) (a, Pc.releasing) ht
      unfold potential
      simp only [List.length_set]
      omega
    · have hs : ((s.tasks.set i (a, Pc.failed e)).map (fun t => pcWeight t.2)).sum + 4 =
          (s.tasks.map (fun t => pcWeight t.2)).sum + 3 :=
        sumMap_set _ s.tasks i (a, Pc.running) (a, Pc.failed e) ht
      unfold potential
      simp only [List.length_set]
      omega
  | report i a e ht =>
    have hs : ((s.tasks.set i (a, Pc.releasing)).map (fun t => pcWeight t.2)).sum + 3 =
        (s.tasks.map (fun t => pcWeight t.2)).sum + 2 :=
      sumMap_set _ s.tasks i (a, Pc.failed e) (a, Pc.releasing) ht
    unfold potential
    simp only [List.length_set]
    omega
  | release i a ht =>
    have hs : ((s.tasks.set i (a, Pc.signaling)).map (fun t => pcWeight t.2)).sum + 2 =
        (s.tasks.map (fun t => pcWeight t.2)).sum + 1 :=
      sumMap_set _ s.tasks i (a, Pc.releasing) (a, Pc.signaling) ht
    unfold potential
    simp only [List.length_set]
    omega
  | signal i a ht =>
    have hs : ((s.tasks.set i (a, Pc.finished)).map (fun t => pcWeight t.2)).sum + 1 =
        (s.tasks.map (fun t => pcWeight t.2)).sum + 0 :=
      sumMap_set _ s.tasks i (a, Pc.signaling) (a, Pc.finished) ht
    unfold potential
    simp only [List.length_set]
    omega

/-- Execution fragments are no longer than the potential of their start
state: executions cannot go on forever. -/
theorem path_length_le {α ε : Type} {items : List α} {cap : Nat}
    {work : α → Option ε} {s : State α ε} {ls : List Label} {s₂ : State α ε}
    (hp : Path items cap work s ls s₂) :
    ls.length + potential items s₂ ≤ potential items s := by
  induction hp with
  | nil _ => simp
  | cons hstep _ ih =>
    have := step_potential hstep
    simp only [List.length_cons]
    omega

/-- From any invariant state, some interleaving runs every goroutine to
completion: the dispatcher terminates. -/
theorem completion_exists {α ε : Type} {items : List α} {cap : Nat}
    {work : α → Option ε} (hcap : 1 ≤ cap) :
    ∀ s : State α ε, Inv items cap work s →
      ∃ ls s₂, Path items cap work s ls s₂ ∧ Final items s₂ := by
  suffices h : ∀ (m : Nat) (s : State α ε), potential items s ≤ m →
      Inv items cap work s →
      ∃ ls s₂, Path items cap work s ls s₂ ∧ Final items s₂ by
    intro s hinv
    exact h (potential items s) s le_rfl hinv
  intro m
  induction m with
  | zero =>
    intro s hpot hinv
    by_cases hf : Final items s
    · exact ⟨[], s, Path.nil s, hf⟩
    · obtain ⟨l, s₂, hstep⟩ := progress hcap hinv hf
      have := step_potential hstep
      omega
  | succ k ih =>
    intro s hpot hinv
    by_cases hf : Final items s
    · exact ⟨[], s, Path.nil s, hf⟩
    · obtain ⟨l, s₂, hstep⟩ := progress hcap hinv hf
      have hlt := step_potential hstep
      obtain ⟨ls, s₃, hp, hf3⟩ := ih s₂ (by omega) (inv_step hinv hstep)
      exact ⟨l :: ls, s₃, Path.cons hstep hp, hf3⟩

/-- Some interleaving of `restore items` runs to completion and returns. -/
theorem returns_exists {α ε : Type} (items : List α) (cap : Nat)
    (work : α → Option ε) (hcap : 1 ≤ cap) :
    ∃ r, Returns items cap work r := by
  obtain ⟨ls, s₂, hp, hf⟩ := completion_exists hcap (initState items)
    (inv_init items cap work)
  exact ⟨s₂.errSlot, ls, s₂, hp, hf, rfl⟩

/-- Under the invariant, the WaitGroup counter reaches 0 exactly when every
goroutine was spawned and has run to completion: `wg.Wait()` returns exactly
at the final states. -/
theorem wg_zero_iff_final {α ε : Type} {items : List α} {cap : Nat}
    {work : α → Option ε} {s : State α ε} (hinv : Inv items cap work s) :
    s.wgCount = 0 ↔ Final items s := by
  constructor
  · intro h0
    have hwg := hinv.wgEq
    have hle : s.tasks.countP (fun t => isFinished t.2) ≤ s.tasks.length :=
      List.countP_le_length _
    have hlen := hinv.tasksLen
    unfold finishedCount at hwg
    have hlen2 : s.tasks.length = items.length := by omega
    have hcnt : s.tasks.countP (fun t => isFinished t.2) = s.tasks.length := by omega
    refine ⟨hlen2, ?_⟩
    intro t ht
    have := List.countP_eq_length.mp hcnt t ht
    cases htpc : t.2 <;> rw [htpc] at this <;> simp [isFinished] at this ⊢
  · intro hf
    have hwg := hinv.wgEq
    unfold finishedCount at hwg
    have hcnt : s.tasks.countP (fun t => isFinished t.2) = s.tasks.length :=
      List.countP_eq_length.mpr (fun t ht => by rw [hf.2 t ht]; rfl)
    have := hf.1
    omega

/-- In a final state, the errChan slot is empty exactly when the work call of every
item returned a nil error. -/
theorem final_success_iff {α ε : Type} {items : List α} {cap : Nat}
    {work : α → Option ε} {s : State α ε} (hinv : Inv items cap work s)
    (hf : Final items s) :
    s.errSlot = none ↔ ∀ a ∈ items, work a = none := by
  constructor
  · intro h0 a ha
    obtain ⟨⟨i, hi⟩, hgi⟩ := List.mem_iff_get.mp ha
    have hi2 : i < s.tasks.length := by rw [hf.1]; exact hi
    obtain ⟨⟨b, pc⟩, hb⟩ : ∃ t, s.tasks[i]? = some t :=
      ⟨s.tasks[i], List.getElem?_eq_getElem hi2⟩
    have hpcf : pc = Pc.finished := hf.2 (b, pc) (List.getElem?_mem hb)
    have hw := hinv.errNone h0 i b pc hb (by rw [hpcf]; rfl)
    have hia := hinv.itemBound i b pc hb
    have hia2 : items[i]? = some a := by
      rw [List.getElem?_eq_getElem hi]
      exact congrArg some hgi
    rw [hia2] at hia
    obtain rfl : a = b := Option.some.injEq .. ▸ hia
    exact hw
  · intro hall
    cases hsl : s.errSlot with
    | none => rfl
    | some e =>
      obtain ⟨a, ha, hae⟩ := hinv.errSome e hsl
      rw [hall a ha] at hae
      exact Option.noConfusion hae

/-- In a final state, if the work call of any item failed, the errChan slot holds
some error that one of the failing work calls produced. -/
theorem final_failure_some {α ε : Type} {items : List α} {cap : Nat}
    {work : α → Option ε} {s : State α ε} (hinv : Inv items cap work s)
    (hf : Final items s) {a₀ : α} (ha₀ : a₀ ∈ items) {e₀ : ε}
    (hw₀ : work a₀ = some e₀) :
    ∃ e, s.errSlot = some e ∧ ∃ a ∈ items, work a = some e := by
  cases hsl : s.errSlot with
  | none =>
    have := (final_success_iff hinv hf).mp hsl a₀ ha₀
    rw [hw₀] at this
    exact Option.noConfusion this
  | some e => exact ⟨e, rfl, hinv.errSome e hsl⟩

/-- In a final state, each task index below the number of items occurs in
the work-call trace exactly once, and no other index occurs. -/
theorem final_trace_count {α ε : Type} {items : List α} {cap : Nat}
    {work : α → Option ε} {s : State α ε} (hinv : Inv items cap work s)
    (hf : Final items s) :
    ∀ i, s.trace.count i = if i < items.length then 1 else 0 := by
  intro i
  by_cases hi : i < items.length
  · have hi2 : i < s.tasks.length := by rw [hf.1]; exact hi
    obtain ⟨⟨b, pc⟩, hb⟩ : ∃ t, s.tasks[i]? = some t :=
      ⟨s.tasks[i], List.getElem?_eq_getElem hi2⟩
    have hpcf : pc = Pc.finished := hf.2 (b, pc) (List.getElem?_mem hb)
    have := hinv.traceCount i b pc hb
    rw [hpcf] at this
    simp [workDone] at this
    simp [hi, this]
  · rw [if_neg hi]
    apply List.count_eq_zero.mpr
    intro hmem
    have := hinv.traceMem i hmem
    rw [hf.1] at this
    exact hi this

/-- In a final state, the work-call trace is a permutation of all the task
indices: each task ran its work call exactly once. -/
theorem final_trace_perm {α ε : Type} {items : List α} {cap : Nat}
    {work : α → Option ε} {s : State α ε} (hinv : Inv items cap work s)
    (hf : Final items s) :
    s.trace.Perm (List.range items.length) := by
  apply List.perm_iff_count.mpr
  intro i
  rw [final_trace_count hinv hf i, count_range]

/-- Task i is at stage `k` or beyond: it was spawned and has executed at
least the first `k` instructions of the worker body. -/
def stageGe {α ε : Type} (s : State α ε) (i k : Nat) : Prop :=
  ∃ m, stageAt s i = some m ∧ k ≤ m

/-- Stages never exceed 5, the stage of a finished task. -/
theorem stageAt_le_five {α ε : Type} {s : State α ε} {i m : Nat}
    (h : stageAt s i = some m) : m ≤ 5 := by
  unfold stageAt at h
  cases hq : s.tasks[i]? with
  | none => rw [hq] at h; exact Option.noConfusion h
  | some t =>
    rw [hq] at h
    simp at h
    rw [← h]
    cases t.2 <;> simp [stage]

/-- Reading a task stage after the pc of one task is overwritten. -/
theorem stageAt_set {α ε : Type} {s : State α ε} {j : Nat} {a : α} {pcOld : Pc ε}
    (pcNew : Pc ε) (ht : s.tasks[j]? = some (a, pcOld)) (s₂ : State α ε)
    (h2 : s₂.tasks = s.tasks.set j (a, pcNew)) (i : Nat) :
    stageAt s₂ i = if i = j then some (stage pcNew) else stageAt s i := by
  unfold stageAt
  rw [h2, getq_set _ _ _ _ (getq_lt ht)]
  by_cases hij : i = j <;> simp [hij]

/-- Reading a task stage after a new task is appended. -/
theorem stageAt_concat {α ε : Type} {s : State α ε} {x : α} (s₂ : State α ε)
    (h2 : s₂.tasks = s.tasks ++ [(x, Pc.idle)]) (i : Nat) :
    stageAt s₂ i = if i = s.tasks.length then some 0 else stageAt s i := by
  unfold stageAt
  rw [h2, getq_concat]
  by_cases h1 : i < s.tasks.length
  · rw [if_pos h1, if_neg (by omega)]
  · by_cases hil : i = s.tasks.length
    · rw [if_neg h1, if_pos hil, if_pos hil]
      simp [stage]
    · rw [if_neg h1, if_neg hil, if_neg hil]
      rw [List.getElem?_eq_none (by omega)]

/-- One step never decreases the stage of any task, and never removes a task. -/
theorem stage_mono_step {α ε : Type} {items : List α} {cap : Nat}
    {work : α → Option ε} {s : State α ε} {l : Label} {s₂ : State α ε}
    (hstep : Step items cap work s l s₂) {i m : Nat}
    (h : stageAt s i = some m) :
    ∃ m₂, stageAt s₂ i = some m₂ ∧ m ≤ m₂ := by
  cases hstep with
  | spawn hn =>
    rw [stageAt_concat _ rfl i]
    by_cases hil : i = s.tasks.length
    · subst hil
      unfold stageAt at h
      rw [List.getElem?_eq_none le_rfl] at h
      exact Option.noConfusion h
    · rw [if_neg hil]
      exact ⟨m, h, le_rfl⟩
  | acquire j a ht hsem =>
    rw [stageAt_set Pc.running ht _ rfl i]
    by_cases hij : i = j
    · subst hij
      unfold stageAt at h
      rw [ht] at h
      simp [stage] at h
      rw [if_pos rfl]
      exact ⟨1, rfl, by omega⟩
    · rw [if_neg hij]
      exact ⟨m, h, le_rfl⟩
  | runWork j a ht =>
    rcases hw : work a with _ | e <;> simp only [hw]
    · rw [stageAt_set Pc.releasing ht _ (by simp only [hw]) i]
      by_cases hij : i = j
      · subst hij
        unfold stageAt at h
        rw [ht] at h
        simp [stage] at h
        rw [if_pos rfl]
        exact ⟨3, rfl, by omega⟩
      · rw [if_neg hij]
        exact ⟨m, h, le_rfl⟩
    · rw [stageAt_set (Pc.failed e) ht _ (by simp only [hw]) i]
      by_cases hij : i = j
      · subst hij
        unfold stageAt at h
        rw [ht] at h
        simp [stage] at h
        rw [if_pos rfl]
        exact ⟨2, rfl, by omega⟩
      · rw [if_neg hij]
        exact ⟨m, h, le_rfl⟩
  | report j a e ht =>
    rw [stageAt_set Pc.releasing ht _ rfl i]
    by_cases hij : i = j
    · subst hij
      unfold stageAt at h
      rw [ht] at h
      simp [stage] at h
      rw [if_pos rfl]
      exact ⟨3, rfl, by omega⟩
    · rw [if_neg hij]
      exact ⟨m, h, le_rfl⟩
  | release j a ht =>
    rw [stageAt_set Pc.signaling ht _ rfl i]
    by_cases hij : i = j
    · subst hij
      unfold stageAt at h
      rw [ht] at h
      simp [stage] at h
      rw [if_pos rfl]
      exact ⟨4, rfl, by omega⟩
    · rw [if_neg hij]
      exact ⟨m, h, le_rfl⟩
  | signal j a ht =>
    rw [stageAt_set Pc.finished ht _ rfl i]
    by_cases hij : i = j
    · subst hij
      unfold stageAt at h
      rw [ht] at h
      simp [stage] at h
      rw [if_pos rfl]
      exact ⟨5, rfl, by omega⟩
    · rw [if_neg hij]
      exact ⟨m, h, le_rfl⟩

/-- An execution fragment never decreases the stage of any task. -/
theorem stage_mono_path {α ε : Type} {items : List α} {cap : Nat}
    {work : α → Option ε} {s : State α ε} {ls : List Label} {s₂ : State α ε}
    (hp : Path items cap work s ls s₂) {i m : Nat}
    (h : stageAt s i = some m) :
    ∃ m₂, stageAt s₂ i = some m₂ ∧ m ≤ m₂ := by
  induction hp generalizing m with
  | nil _ => exact ⟨m, h, le_rfl⟩
  | cons hstep _ ih =>
    obtain ⟨m₁, h₁, hle₁⟩ := stage_mono_step hstep h
    obtain ⟨m₂, h₂, hle₂⟩ := ih h₁
    exact ⟨m₂, h₂, le_trans hle₁ hle₂⟩

/-- In the initial state no task exists yet. -/
theorem stageAt_init {α ε : Type} (items : List α) (i : Nat) :
    stageAt (initState items : State α ε) i = none := by
  unfold stageAt initState
  simp

/-- A step of one task leaves the stage of every other task unchanged. -/
theorem step_other_task {α ε : Type} {items : List α} {cap : Nat}
    {work : α → Option ε} {s : State α ε} {l : Label} {s₂ : State α ε}
    (hstep : Step items cap work s l s₂) (i : Nat) (hne : Label.idx l ≠ i) :
    stageAt s₂ i = stageAt s i := by
  cases hstep with
  | spawn hn =>
    rw [stageAt_concat _ rfl i, if_neg (fun h => hne h.symm)]
  | acquire j a ht hsem =>
    rw [stageAt_set Pc.running ht _ rfl i, if_neg (fun h => hne h.symm)]
  | runWork j a ht =>
    rcases hw : work a with _ | e <;> simp only [hw]
    · rw [stageAt_set Pc.releasing ht _ (by simp only [hw]) i,
        if_neg (fun h => hne h.symm)]
    · rw [stageAt_set (Pc.failed e) ht _ (by simp only [hw]) i,
        if_neg (fun h => hne h.symm)]
  | report j a e ht =>
    rw [stageAt_set Pc.releasing ht _ rfl i, if_neg (fun h => hne h.symm)]
  | release j a ht =>
    rw [stageAt_set Pc.signaling ht _ rfl i, if_neg (fun h => hne h.symm)]
  | signal j a ht =>
    rw [stageAt_set Pc.finished ht _ rfl i, if_neg (fun h => hne h.symm)]

/-- A spawn event for task i can only happen when exactly i tasks exist, and
creates task i at stage 0. -/
theorem step_spawn_stages {α ε : Type} {items : List α} {cap : Nat}
    {work : α → Option ε} {s : State α ε} {i : Nat} {s₂ : State α ε}
    (hstep : Step items cap work s (.spawn i) s₂) :
    s.tasks.length = i ∧ stageAt s i = none ∧ stageAt s₂ i = some 0 := by
  cases hstep with
  | spawn hn =>
    refine ⟨rfl, ?_, ?_⟩
    · unfold stageAt
      rw [List.getElem?_eq_none le_rfl]
      rfl
    · rw [stageAt_concat _ rfl _, if_pos rfl]

/-- An acquire event for task i happens exactly at stage 0, moves the task to
stage 1, and requires a free slot in the semaphore buffer. -/
theorem step_acquire_stages {α ε : Type} {items : List α} {cap : Nat}
    {work : α → Option ε} {s : State α ε} {i : Nat} {s₂ : State α ε}
    (hstep : Step items cap work s (.acquire i) s₂) :
    stageAt s i = some 0 ∧ stageAt s₂ i = some 1 ∧ s.sem < cap := by
  cases hstep with
  | acquire j a ht hsem =>
    refine ⟨?_, ?_, hsem⟩
    · unfold stageAt
      rw [ht]
      rfl
    · rw [stageAt_set Pc.running ht _ rfl _, if_pos rfl]
      rfl

/-- A work event for task i happens exactly at stage 1 and moves the task to
stage 2 or 3. -/
theorem step_run_stages {α ε : Type} {items : List α} {cap : Nat}
    {work : α → Option ε} {s : State α ε} {i : Nat} {s₂ : State α ε}
    (hstep : Step items cap work s (.runWork i) s₂) :
    stageAt s i = some 1 ∧ ∃ m₂, stageAt s₂ i = some m₂ ∧ 2 ≤ m₂ ∧ m₂ ≤ 3 := by
  cases hstep with
  | runWork j a ht =>
    refine ⟨?_, ?_⟩
    · unfold stageAt
      rw [ht]
      rfl
    · rcases hw : work a with _ | e <;> simp only [hw]
      · rw [stageAt_set Pc.releasing ht _ (by simp only [hw]) _, if_pos rfl]
        exact ⟨3, rfl, by omega, by omega⟩
      · rw [stageAt_set (Pc.failed e) ht _ (by simp only [hw]) _, if_pos rfl]
        exact ⟨2, rfl, by omega, by omega⟩

/-- A report event for task i happens exactly at stage 2 and moves the task
to stage 3. -/
theorem step_report_stages {α ε : Type} {items : List α} {cap : Nat}
    {work : α → Option ε} {s : State α ε} {i : Nat} {s₂ : State α ε}
    (hstep : Step items cap work s (.report i) s₂) :
    stageAt s i = some 2 ∧ stageAt s₂ i = some 3 := by
  cases hstep with
  | report j a e ht =>
    refine ⟨?_, ?_⟩
    · unfold stageAt
      rw [ht]
      rfl
    · rw [stageAt_set Pc.releasing ht _ rfl _, if_pos rfl]
      rfl

/-- A release event for task i happens exactly at stage 3 and moves the task
to stage 4. -/
theorem step_release_stages {α ε : Type} {items : List α} {cap : Nat}
    {work : α → Option ε} {s : State α ε} {i : Nat} {s₂ : State α ε}
    (hstep : Step items cap work s (.release i) s₂) :
    stageAt s i = some 3 ∧ stageAt s₂ i = some 4 := by
  cases hstep with
  | release j a ht =>
    refine ⟨?_, ?_⟩
    · unfold stageAt
      rw [ht]
      rfl
    · rw [stageAt_set Pc.signaling ht _ rfl _, if_pos rfl]
      rfl

/-- A signal event for task i happens exactly at stage 4 and moves the task
to stage 5. -/
theorem step_signal_stages {α ε : Type} {items : List α} {cap : Nat}
    {work : α → Option ε} {s : State α ε} {i : Nat} {s₂ : State α ε}
    (hstep : Step items cap work s (.signal i) s₂) :
    stageAt s i = some 4 ∧ stageAt s₂ i = some 5 := by
  cases hstep with
  | signal j a ht =>
    refine ⟨?_, ?_⟩
    · unfold stageAt
      rw [ht]
      rfl
    · rw [stageAt_set Pc.finished ht _ rfl _, if_pos rfl]
      rfl

/-- Along an execution fragment, a task can only be found at stage 0 or
beyond if it already started the fragment there or the event `spawn i`
occurred during the fragment. -/
theorem path_cross_spawn {α ε : Type} {items : List α} {cap : Nat}
    {work : α → Option ε} {s₀ : State α ε} {ls : List Label} {s₂ : State α ε}
    (hp : Path items cap work s₀ ls s₂) (i : Nat) :
    stageGe s₂ i 0 → stageGe s₀ i 0 ∨ Label.spawn i ∈ ls := by
  induction hp with
  | nil _ => exact fun h₂ => Or.inl h₂
  | cons hstep hrest ih =>
    intro h₂
    rename_i sA sB sC l lstail
    rcases ih h₂ with hmid | hmem
    · by_cases hidx : Label.idx l = i
      · cases l with
        | spawn j =>
          exact Or.inr (by rw [show j = i from hidx]; exact List.mem_cons_self _ _)
        | acquire j =>
          obtain ⟨hpre, _, _⟩ := step_acquire_stages ((show j = i from hidx) ▸ hstep)
          exact Or.inl ⟨0, hpre, by omega⟩
        | runWork j =>
          obtain ⟨hpre, _⟩ := step_run_stages ((show j = i from hidx) ▸ hstep)
          exact Or.inl ⟨1, hpre, by omega⟩
        | report j =>
          obtain ⟨hpre, _⟩ := step_report_stages ((show j = i from hidx) ▸ hstep)
          exact Or.inl ⟨2, hpre, by omega⟩
        | release j =>
          obtain ⟨hpre, _⟩ := step_release_stages ((show j = i from hidx) ▸ hstep)
          exact Or.inl ⟨3, hpre, by omega⟩
        | signal j =>
          obtain ⟨hpre, _⟩ := step_signal_stages ((show j = i from hidx) ▸ hstep)
          exact Or.inl ⟨4, hpre, by omega⟩
      · obtain ⟨m, hm, hge⟩ := hmid
        exact Or.inl ⟨m, (step_other_task hstep i hidx).symm.trans hm, hge⟩
    · exact Or.inr (List.mem_cons_of_mem _ hmem)

/-- Along an execution fragment, a task can only be found at stage 1 or
beyond if it already started the fragment there or the event `acquire i`
occurred during the fragment. -/
theorem path_cross_acquire {α ε : Type} {items : List α} {cap : Nat}
    {work : α → Option ε} {s₀ : State α ε} {ls : List Label} {s₂ : State α ε}
    (hp : Path items cap work s₀ ls s₂) (i : Nat) :
    stageGe s₂ i 1 → stageGe s₀ i 1 ∨ Label.acquire i ∈ ls := by
  induction hp with
  | nil _ => exact fun h₂ => Or.inl h₂
  | cons hstep hrest ih =>
    intro h₂
    rename_i sA sB sC l lstail
    rcases ih h₂ with hmid | hmem
    · by_cases hidx : Label.idx l = i
      · cases l with
        | spawn j =>
          obtain ⟨m, hm, hge⟩ := hmid
          obtain ⟨_, _, hpost⟩ := step_spawn_stages ((show j = i from hidx) ▸ hstep)
          rw [hpost] at hm
          simp at hm
          omega
        | acquire j =>
          exact Or.inr (by rw [show j = i from hidx]; exact List.mem_cons_self _ _)
        | runWork j =>
          obtain ⟨hpre, _⟩ := step_run_stages ((show j = i from hidx) ▸ hstep)
          exact Or.inl ⟨1, hpre, by omega⟩
        | report j =>
          obtain ⟨hpre, _⟩ := step_report_stages ((show j = i from hidx) ▸ hstep)
          exact Or.inl ⟨2, hpre, by omega⟩
        | release j =>
          obtain ⟨hpre, _⟩ := step_release_stages ((show j = i from hidx) ▸ hstep)
          exact Or.inl ⟨3, hpre, by omega⟩
        | signal j =>
          obtain ⟨hpre, _⟩ := step_signal_stages ((show j = i from hidx) ▸ hstep)
          exact Or.inl ⟨4, hpre, by omega⟩
      · obtain ⟨m, hm, hge⟩ := hmid
        exact Or.inl ⟨m, (step_other_task hstep i hidx).symm.trans hm, hge⟩
    · exact Or.inr (List.mem_cons_of_mem _ hmem)

/-- Along an execution fragment, a task can only be found at stage 2 or
beyond if it already started the fragment there or the event `runWork i`
occurred during the fragment. -/
theorem path_cross_run {α ε : Type} {items : List α} {cap : Nat}
    {work : α → Option ε} {s₀ : State α ε} {ls : List Label} {s₂ : State α ε}
    (hp : Path items cap work s₀ ls s₂) (i : Nat) :
    stageGe s₂ i 2 → stageGe s₀ i 2 ∨ Label.runWork i ∈ ls := by
  induction hp with
  | nil _ => exact fun h₂ => Or.inl h₂
  | cons hstep hrest ih =>
    intro h₂
    rename_i sA sB sC l lstail
    rcases ih h₂ with hmid | hmem
    · by_cases hidx : Label.idx l = i
      · cases l with
        | spawn j =>
          obtain ⟨m, hm, hge⟩ := hmid
          obtain ⟨_, _, hpost⟩ := step_spawn_stages ((show j = i from hidx) ▸ hstep)
          rw [hpost] at hm
          simp at hm
          omega
        | acquire j =>
          obtain ⟨m, hm, hge⟩ := hmid
          obtain ⟨_, hpost, _⟩ := step_acquire_stages ((show j = i from hidx) ▸ hstep)
          rw [hpost] at hm
          simp at hm
          omega
        | runWork j =>
          exact Or.inr (by rw [show j = i from hidx]; exact List.mem_cons_self _ _)
        | report j =>
          obtain ⟨hpre, _⟩ := step_report_stages ((show j = i from hidx) ▸ hstep)
          exact Or.inl ⟨2, hpre, by omega⟩
        | release j =>
          obtain ⟨hpre, _⟩ := step_release_stages ((show j = i from hidx) ▸ hstep)
          exact Or.inl ⟨3, hpre, by omega⟩
        | signal j =>
          obtain ⟨hpre, _⟩ := step_signal_stages ((show j = i from hidx) ▸ hstep)
          exact Or.inl ⟨4, hpre, by omega⟩
      · obtain ⟨m, hm, hge⟩ := hmid
        exact Or.inl ⟨m, (step_other_task hstep i hidx).symm.trans hm, hge⟩
    · exact Or.inr (List.mem_cons_of_mem _ hmem)

/-- Along an execution fragment, a task can only be found at stage 4 or
beyond if it already started the fragment there or the event `release i`
occurred during the fragment. -/
theorem path_cross_release {α ε : Type} {items : List α} {cap : Nat}
    {work : α → Option ε} {s₀ : State α ε} {ls : List Label} {s₂ : State α ε}
    (hp : Path items cap work s₀ ls s₂) (i : Nat) :
    stageGe s₂ i 4 → stageGe s₀ i 4 ∨ Label.release i ∈ ls := by
  induction hp with
  | nil _ => exact fun h₂ => Or.inl h₂
  | cons hstep hrest ih =>
    intro h₂
    rename_i sA sB sC l lstail
    rcases ih h₂ with hmid | hmem
    · by_cases hidx : Label.idx l = i
      · cases l with
        | spawn j =>
          obtain ⟨m, hm, hge⟩ := hmid
          obtain ⟨_, _, hpost⟩ := step_spawn_stages ((show j = i from hidx) ▸ hstep)
          rw [hpost] at hm
          simp at hm
          omega
        | acquire j =>
          obtain ⟨m, hm, hge⟩ := hmid
          obtain ⟨_, hpost, _⟩ := step_acquire_stages ((show j = i from hidx) ▸ hstep)
          rw [hpost] at hm
          simp at hm
          omega
        | runWork j =>
          obtain ⟨m, hm, hge⟩ := hmid
          obtain ⟨_, m₂, hpost, hge2, hle2⟩ := step_run_stages ((show j = i from hidx) ▸ hstep)
          rw [hpost] at hm
          simp at hm
          omega
        | report j =>
          obtain ⟨m, hm, hge⟩ := hmid
          obtain ⟨_, hpost⟩ := step_report_stages ((show j = i from hidx) ▸ hstep)
          rw [hpost] at hm
          simp at hm
          omega
        | release j =>
          exact Or.inr (by rw [show j = i from hidx]; exact List.mem_cons_self _ _)
        | signal j =>
          obtain ⟨hpre, _⟩ := step_signal_stages ((show j = i from hidx) ▸ hstep)
          exact Or.inl ⟨4, hpre, by omega⟩
      · obtain ⟨m, hm, hge⟩ := hmid
        exact Or.inl ⟨m, (step_other_task hstep i hidx).symm.trans hm, hge⟩
    · exact Or.inr (List.mem_cons_of_mem _ hmem)

/-- Along an execution fragment, a task can only be found at stage 5 or
beyond if it already started the fragment there or the event `signal i`
occurred during the fragment. -/
theorem path_cross_signal {α ε : Type} {items : List α} {cap : Nat}
    {work : α → Option ε} {s₀ : State α ε} {ls : List Label} {s₂ : State α ε}
    (hp : Path items cap work s₀ ls s₂) (i : Nat) :
    stageGe s₂ i 5 → stageGe s₀ i 5 ∨ Label.signal i ∈ ls := by
  induction hp with
  | nil _ => exact fun h₂ => Or.inl h₂
  | cons hstep hrest ih =>
    intro h₂
    rename_i sA sB sC l lstail
    rcases ih h₂ with hmid | hmem
    · by_cases hidx : Label.idx l = i
      · cases l with
        | spawn j =>
          obtain ⟨m, hm, hge⟩ := hmid
          obtain ⟨_, _, hpost⟩ := step_spawn_stages ((show j = i from hidx) ▸ hstep)
          rw [hpost] at hm
          simp at hm
          omega
        | acquire j =>
          obtain ⟨m, hm, hge⟩ := hmid
          obtain ⟨_, hpost, _⟩ := step_acquire_stages ((show j = i from hidx) ▸ hstep)
          rw [hpost] at hm
          simp at hm
          omega
        | runWork j =>
          obtain ⟨m, hm, hge⟩ := hmid
          obtain ⟨_, m₂, hpost, hge2, hle2⟩ := step_run_stages ((show j = i from hidx) ▸ hstep)
          rw [hpost] at hm
          simp at hm
          omega
        | report j =>
          obtain ⟨m, hm, hge⟩ := hmid
          obtain ⟨_, hpost⟩ := step_report_stages ((show j = i from hidx) ▸ hstep)
          rw [hpost] at hm
          simp at hm
          omega
        | release j =>
          obtain ⟨m, hm, hge⟩ := hmid
          obtain ⟨_, hpost⟩ := step_release_stages ((show j = i from hidx) ▸ hstep)
          rw [hpost] at hm
          simp at hm
          omega
        | signal j =>
          exact Or.inr (by rw [show j = i from hidx]; exact List.mem_cons_self _ _)
      · obtain ⟨m, hm, hge⟩ := hmid
        exact Or.inl ⟨m, (step_other_task hstep i hidx).symm.trans hm, hge⟩
    · exact Or.inr (List.mem_cons_of_mem _ hmem)

/-- Once a task is finished, no further signal event of that task occurs. -/
theorem signal_notin_of_stage {α ε : Type} {items : List α} {cap : Nat}
    {work : α → Option ε} {s₀ : State α ε} {ls : List Label} {s₂ : State α ε}
    (hp : Path items cap work s₀ ls s₂) (i : Nat)
    (h5 : stageAt s₀ i = some 5) : Label.signal i ∉ ls := by
  induction hp with
  | nil _ => simp
  | cons hstep hrest ih =>
    rename_i sA sB sC l lstail
    intro hmem
    rcases List.mem_cons.mp hmem with heq | hmem2
    · subst heq
      obtain ⟨hpre, _⟩ := step_signal_stages hstep
      rw [h5] at hpre
      simp at hpre
    · obtain ⟨m₂, hm₂, hge⟩ := stage_mono_step hstep h5
      have hm5 : m₂ = 5 := Nat.le_antisymm (stageAt_le_five hm₂) hge
      exact ih (hm5 ▸ hm₂) hmem2

/-- Each task signals the WaitGroup at most once in any execution. -/
theorem signal_count_le_one {α ε : Type} {items : List α} {cap : Nat}
    {work : α → Option ε} {s₀ : State α ε} {ls : List Label} {s₂ : State α ε}
    (hp : Path items cap work s₀ ls s₂) (i : Nat) :
    ls.count (Label.signal i) ≤ 1 := by
  induction hp with
  | nil _ => simp
  | cons hstep hrest ih =>
    rename_i sA sB sC l lstail
    by_cases hl : l = Label.signal i
    · subst hl
      obtain ⟨_, hpost⟩ := step_signal_stages hstep
      have h0 : lstail.count (Label.signal i) = 0 :=
        List.count_eq_zero.mpr (signal_notin_of_stage hrest i hpost)
      rw [List.count_cons_self, h0]
    · rw [List.count_cons_of_ne (fun h => hl h.symm)]
      exact ih

/-- The errChan slot is write-once: once occupied, every later state carries
the same error. -/
theorem errSlot_mono_step {α ε : Type} {items : List α} {cap : Nat}
    {work : α → Option ε} {s : State α ε} {l : Label} {s₂ : State α ε}
    (hstep : Step items cap work s l s₂) (e : ε) (h : s.errSlot = some e) :
    s₂.errSlot = some e := by
  cases hstep with
  | spawn hn => exact h
  | acquire i a ht hsem => exact h
  | runWork i a ht => exact h
  | report i a e2 ht =>
    show some (s.errSlot.getD e2) = some e
    rw [h]
    rfl
  | release i a ht => exact h
  | signal i a ht => exact h

/-- Claim C2: for every capacity N at least 1 fixed at construction and every
input list, at every reachable point the number of tasks that have sent on
sem and not yet received from it is at most N; an acquire step is impossible
while N holders exist; and a release step is always possible for a task that
is ready to release. -/
theorem claim_C2 {α ε : Type} (items : List α) (cap : Nat) (work : α → Option ε)
    (_hcap : 1 ≤ cap) :
    ∀ s : State α ε, Reachable items cap work s →
      holdersCount s ≤ cap
      ∧ (holdersCount s = cap → ∀ i s₂, ¬ Step items cap work s (Label.acquire i) s₂)
      ∧ (∀ i a, s.tasks[i]? = some (a, Pc.releasing) →
          ∃ s₂, Step items cap work s (Label.release i) s₂) := by
  intro s hs
  have hinv := reachable_inv hs
  refine ⟨?_, ?_, ?_⟩
  · rw [← hinv.semEq]
    exact hinv.semLe
  · intro hfull i s₂ hstep
    obtain ⟨_, _, hsem⟩ := step_acquire_stages hstep
    rw [hinv.semEq, hfull] at hsem
    exact absurd hsem (lt_irrefl cap)
  · intro i a ht
    exact ⟨_, Step.release s i a ht⟩

/-- Claim C4: in every execution, the release step of a task of the gate happens
strictly before its completion signal to the WaitGroup; consequently, once
the WaitGroup counter has reached 0 (`wg.Wait()` returned), no task holds a
gate slot and the semaphore buffer is empty. -/
theorem claim_C4 {α ε : Type} (items : List α) (cap : Nat) (work : α → Option ε) :
    (∀ ls s ls₁ ls₂ i, Path items cap work (initState items) ls s →
        ls = ls₁ ++ Label.signal i :: ls₂ → Label.release i ∈ ls₁)
    ∧ (∀ s : State α ε, Reachable items cap work s → s.wgCount = 0 →
        holdersCount s = 0 ∧ s.sem = 0) := by
  constructor
  · intro ls s ls₁ ls₂ i hp hdec
    subst hdec
    obtain ⟨sm, hp₁, hp₂⟩ := path_append_split hp
    cases hp₂ with
    | cons hstep hrest =>
      obtain ⟨hpre, _⟩ := step_signal_stages hstep
      rcases path_cross_release hp₁ i ⟨4, hpre, le_rfl⟩ with hge | hmem
      · obtain ⟨m, hm, _⟩ := hge
        rw [stageAt_init] at hm
        exact Option.noConfusion hm
      · exact hmem
  · intro s hs h0
    have hinv := reachable_inv hs
    have hf := (wg_zero_iff_final hinv).mp h0
    have hz : holdersCount s = 0 := by
      unfold holdersCount
      apply List.countP_eq_zero.mpr
      intro t ht
      rw [hf.2 t ht]
      simp [holdsGate]
    exact ⟨hz, by rw [hinv.semEq, hz]⟩

/-- Claim C5: every spawned task carries its own copy of exactly the item it
was spawned for, bound at spawn time, and in every complete execution the
work calls that happened are exactly one per task index: no item is consumed
twice and none is skipped. -/
theorem claim_C5 {α ε : Type} (items : List α) (cap : Nat) (work : α → Option ε) :
    (∀ s : State α ε, Reachable items cap work s →
        ∀ (i : Nat) (a : α) (pc : Pc ε), s.tasks[i]? = some (a, pc) →
          items[i]? = some a)
    ∧ (∀ ls s, Path items cap work (initState items) ls s → Final items s →
        s.trace.Perm (List.range items.length)) := by
  constructor
  · intro s hs i a pc ht
    exact (reachable_inv hs).itemBound i a pc ht
  · intro ls s hp hf
    exact final_trace_perm (path_inv (inv_init items cap work) hp) hf

/-- Claim C8: with an empty input list, the dispatcher is already at its
final point without spawning any task or taking any step, the WaitGroup
counter is 0 so the wait does not block, and the only possible result is the
nil error. -/
theorem claim_C8 {α ε : Type} (cap : Nat) (work : α → Option ε) :
    Returns ([] : List α) cap work none
    ∧ (∀ r, Returns ([] : List α) cap work r → r = none)
    ∧ Final ([] : List α) (initState [] : State α ε)
    ∧ (initState ([] : List α) : State α ε).wgCount = 0
    ∧ (∀ l s₂, ¬ Step ([] : List α) cap work (initState []) l s₂) := by
  have hnostep : ∀ (l : Label) (s₂ : State α ε),
      ¬ Step [] cap work (initState []) l s₂ := by
    intro l s₂ hstep
    cases hstep with
    | spawn hn => simp [initState] at hn
    | acquire i a ht hsem => simp [initState] at ht
    | runWork i a ht => simp [initState] at ht
    | report i a e ht => simp [initState] at ht
    | release i a ht => simp [initState] at ht
    | signal i a ht => simp [initState] at ht
  have hfin : Final ([] : List α) (initState [] : State α ε) :=
    ⟨rfl, by intro t ht; simp [initState] at ht⟩
  refine ⟨⟨[], initState [], Path.nil _, hfin, rfl⟩, ?_, hfin, rfl, hnostep⟩
  intro r hr
  obtain ⟨ls, s, hp, hf, hsl⟩ := hr
  cases hp with
  | nil _ => rw [← hsl]; rfl
  | cons hstep _ => exact absurd hstep (hnostep _ _)

/-- Claim C9: with the same items and the same pure work function, any two
complete runs of the dispatcher agree on success versus failure: the result
is nil in one exactly when it is nil in the other. -/
theorem claim_C9 {α ε : Type} (items : List α) (cap : Nat) (work : α → Option ε) :
    ∀ r₁ r₂, Returns items cap work r₁ → Returns items cap work r₂ →
      r₁.isNone = r₂.isNone := by
  have key : ∀ r, Returns items cap work r →
      (r = none ↔ ∀ a ∈ items, work a = none) := by
    intro r hr
    obtain ⟨ls, s, hp, hf, hsl⟩ := hr
    rw [← hsl]
    exact final_success_iff (path_inv (inv_init items cap work) hp) hf
  intro r₁ r₂ h₁ h₂
  by_cases hall : ∀ a ∈ items, work a = none
  · rw [(key r₁ h₁).mpr hall, (key r₂ h₂).mpr hall]
  · have h1n : r₁ ≠ none := fun h => hall ((key r₁ h₁).mp h)
    have h2n : r₂ ≠ none := fun h => hall ((key r₂ h₂).mp h)
    rcases r₁ with _ | e₁
    · exact absurd rfl h1n
    · rcases r₂ with _ | e₂
      · exact absurd rfl h2n
      · rfl

/-- Claim C10: every spawned task signals the WaitGroup exactly once in a
complete run and at most once in any run; the counter always equals the
number of items minus the number of finished tasks (so it never goes below
zero), and it reaches 0 exactly when every task has run to completion. -/
theorem claim_C10 {α ε : Type} (items : List α) (cap : Nat) (work : α → Option ε) :
    (∀ s : State α ε, Reachable items cap work s →
        s.wgCount + finishedCount s = items.length ∧ (s.wgCount = 0 ↔ Final items s))
    ∧ (∀ (s₀ : State α ε) ls s₂ i, Path items cap work s₀ ls s₂ →
        ls.count (Label.signal i) ≤ 1)
    ∧ (∀ ls s, Path items cap work (initState items) ls s → Final items s →
        ∀ i, i < items.length → ls.count (Label.signal i) = 1) := by
  refine ⟨?_, ?_, ?_⟩
  · intro s hs
    have hinv := reachable_inv hs
    exact ⟨hinv.wgEq, wg_zero_iff_final hinv⟩
  · intro s₀ ls s₂ i hp
    exact signal_count_le_one hp i
  · intro ls s hp hf i hi
    have hle := signal_count_le_one hp i
    have hmem : Label.signal i ∈ ls := by
      have hi2 : i < s.tasks.length := by rw [hf.1]; exact hi
      obtain ⟨⟨b, pc⟩, hb⟩ : ∃ t, s.tasks[i]? = some t :=
        ⟨s.tasks[i], List.getElem?_eq_getElem hi2⟩
      have hpcf : pc = Pc.finished := hf.2 (b, pc) (List.getElem?_mem hb)
      have h5 : stageAt s i = some 5 := by
        unfold stageAt
        rw [hb, hpcf]
        rfl
      rcases path_cross_signal hp i ⟨5, h5, le_rfl⟩ with hge | hm
      · obtain ⟨m, hm2, _⟩ := hge
        rw [stageAt_init] at hm2
        exact Option.noConfusion hm2
      · exact hm
    have hpos := List.count_pos_iff.mpr hmem
    omega

/-- Claim C1: when several items (here: at least two) fail, every complete
run of the dispatcher returns exactly one error, and that error is one some
failing work call produced; the system never deadlocks (a step is always
possible before completion and every execution is finite), the error store is
non-blocking (the report step is always enabled for a failed task), and every
error after the first is discarded (the occupied slot is never overwritten). -/
theorem claim_C1 {α ε : Type} (items : List α) (cap : Nat) (work : α → Option ε)
    (hcap : 1 ≤ cap)
    (hfail : 2 ≤ items.countP (fun a => (work a).isSome)) :
    (∃ r, Returns items cap work r)
    ∧ (∀ r, Returns items cap work r →
        ∃ e, r = some e ∧ ∃ a ∈ items, work a = some e)
    ∧ (∀ s : State α ε, Reachable items cap work s → ¬ Final items s →
        ∃ l s₂, Step items cap work s l s₂)
    ∧ (∀ (s : State α ε) (i : Nat) (a : α) (e : ε), Reachable items cap work s →
        s.tasks[i]? = some (a, Pc.failed e) →
        ∃ s₂, Step items cap work s (Label.report i) s₂)
    ∧ (∀ (s : State α ε) (l : Label) (s₂ : State α ε) (e : ε),
        Step items cap work s l s₂ → s.errSlot = some e → s₂.errSlot = some e)
    ∧ (∀ ls s, Path items cap work (initState items) ls s →
        ls.length ≤ items.length * 6) := by
  refine ⟨returns_exists items cap work hcap, ?_, ?_, ?_, ?_, ?_⟩
  · intro r hr
    obtain ⟨ls, s, hp, hf, hsl⟩ := hr
    have hinv := path_inv (inv_init items cap work) hp
    have hpos : 0 < items.countP (fun a => (work a).isSome) := by omega
    obtain ⟨a₀, ha₀, hp₀⟩ := List.countP_pos_iff.mp hpos
    obtain ⟨e₀, hw₀⟩ := Option.isSome_iff_exists.mp hp₀
    obtain ⟨e, hsl2, hset⟩ := final_failure_some hinv hf ha₀ hw₀
    exact ⟨e, by rw [← hsl, hsl2], hset⟩
  · intro s hs hnf
    exact progress hcap (reachable_inv hs) hnf
  · intro s i a e _ ht
    exact ⟨_, Step.report s i a e ht⟩
  · intro s l s₂ e hstep h
    exact errSlot_mono_step hstep e h
  · intro ls s hp
    have hb := path_length_le hp
    have h0 : potential items (initState items : State α ε) = items.length * 6 := by
      unfold potential initState
      simp
    omega

/-- Claim C6: if exactly one item fails its work call, with error E, then every
complete run of the dispatcher returns exactly E, and a complete run exists. -/
theorem claim_C6 {α ε : Type} (items : List α) (cap : Nat) (work : α → Option ε)
    (i₀ : Nat) (a₀ : α) (E : ε) (hcap : 1 ≤ cap)
    (hi : items[i₀]? = some a₀) (hE : work a₀ = some E)
    (huniq : ∀ j, j < items.length → j ≠ i₀ →
      ∀ b, items[j]? = some b → work b = none) :
    Returns items cap work (some E)
    ∧ ∀ r, Returns items cap work r → r = some E := by
  have hall : ∀ r, Returns items cap work r → r = some E := by
    intro r hr
    obtain ⟨ls, s, hp, hf, hsl⟩ := hr
    have hinv := path_inv (inv_init items cap work) hp
    obtain ⟨e, hsl2, a, ha, hae⟩ :=
      final_failure_some hinv hf (List.getElem?_mem hi) hE
    obtain ⟨⟨j, hj⟩, hja⟩ := List.mem_iff_get.mp ha
    have hja2 : items[j]? = some a := by
      rw [List.getElem?_eq_getElem hj]
      exact congrArg some hja
    have heE : e = E := by
      by_cases hji : j = i₀
      · subst hji
        rw [hi] at hja2
        obtain rfl : a₀ = a := Option.some.injEq .. ▸ hja2
        rw [hE] at hae
        exact (Option.some.injEq .. ▸ hae).symm
      · rw [huniq j hj hji a hja2] at hae
        exact Option.noConfusion hae
    rw [← hsl, hsl2, heE]
  constructor
  · obtain ⟨r, hr⟩ := returns_exists items cap work hcap
    have heq := hall r hr
    rwa [heq] at hr
  · exact hall

/-- Claim C7: if no item fails its work call, every complete run returns the
nil error and a complete run exists; moreover for any work function at all,
whenever the WaitGroup counter has reached 0 the work call of every item has run
exactly once: no task is skipped or aborted early because of other failures. -/
theorem claim_C7 {α ε : Type} (items : List α) (cap : Nat) (work : α → Option ε)
    (hcap : 1 ≤ cap) (hok : ∀ a ∈ items, work a = none) :
    Returns items cap work none
    ∧ (∀ r, Returns items cap work r → r = none)
    ∧ (∀ (work2 : α → Option ε) (s : State α ε), Reachable items cap work2 s →
        s.wgCount = 0 → ∀ i, i < items.length → s.trace.count i = 1) := by
  have hall : ∀ r, Returns items cap work r → r = none := by
    intro r hr
    obtain ⟨ls, s, hp, hf, hsl⟩ := hr
    rw [← hsl]
    exact (final_success_iff (path_inv (inv_init items cap work) hp) hf).mpr hok
  refine ⟨?_, hall, ?_⟩
  · obtain ⟨r, hr⟩ := returns_exists items cap work hcap
    have heq := hall r hr
    rwa [heq] at hr
  · intro work2 s hs h0 i hi
    have hinv := reachable_inv hs
    have hf := (wg_zero_iff_final hinv).mp h0
    have := final_trace_count hinv hf i
    rwa [if_pos hi] at this

/-- Claim C3: the gate acquire for each item happens inside the task of that item, after its spawn event and immediately before its work call, and never
in the dispatch loop: a spawn step is possible exactly when items remain,
independently of the semaphore state, so the dispatch loop never blocks on
the gate; in every execution the acquire of task i occurs after `spawn i`
and before `runWork i`, with no other event of task i in between. -/
theorem claim_C3 {α ε : Type} (items : List α) (cap : Nat) (work : α → Option ε) :
    (∀ (s : State α ε) (j : Nat),
        (∃ s₂, Step items cap work s (Label.spawn j) s₂) ↔
          (j = s.tasks.length ∧ s.tasks.length < items.length))
    ∧ (∀ ls s ls₁ ls₂ i, Path items cap work (initState items) ls s →
        ls = ls₁ ++ Label.acquire i :: ls₂ → Label.spawn i ∈ ls₁)
    ∧ (∀ ls s ls₁ ls₂ i, Path items cap work (initState items) ls s →
        ls = ls₁ ++ Label.runWork i :: ls₂ → Label.acquire i ∈ ls₁)
    ∧ (∀ ls s ls₁ ls₂ ls₃ i, Path items cap work (initState items) ls s →
        ls = ls₁ ++ Label.acquire i :: (ls₂ ++ Label.runWork i :: ls₃) →
        ∀ l ∈ ls₂, Label.idx l ≠ i) := by
  refine ⟨?_, ?_, ?_, ?_⟩
  · intro s j
    constructor
    · intro hex
      obtain ⟨s₂, hstep⟩ := hex
      cases hstep with
      | spawn hn => exact ⟨rfl, hn⟩
    · rintro ⟨rfl, hn⟩
      exact ⟨_, Step.spawn s hn⟩
  · intro ls s ls₁ ls₂ i hp hdec
    subst hdec
    obtain ⟨sm, hp₁, hp₂⟩ := path_append_split hp
    cases hp₂ with
    | cons hstep hrest =>
      obtain ⟨hpre, _, _⟩ := step_acquire_stages hstep
      rcases path_cross_spawn hp₁ i ⟨0, hpre, le_rfl⟩ with hge | hmem
      · obtain ⟨m, hm, _⟩ := hge
        rw [stageAt_init] at hm
        exact Option.noConfusion hm
      · exact hmem
  · intro ls s ls₁ ls₂ i hp hdec
    subst hdec
    obtain ⟨sm, hp₁, hp₂⟩ := path_append_split hp
    cases hp₂ with
    | cons hstep hrest =>
      obtain ⟨hpre, _⟩ := step_run_stages hstep
      rcases path_cross_acquire hp₁ i ⟨1, hpre, le_rfl⟩ with hge | hmem
      · obtain ⟨m, hm, _⟩ := hge
        rw [stageAt_init] at hm
        exact Option.noConfusion hm
      · exact hmem
  · intro ls s ls₁ ls₂ ls₃ i hp hdec l hl hidx
    subst hdec
    obtain ⟨sa, hpa, hpb⟩ := path_append_split hp
    cases hpb with
    | cons hacq hrest1 =>
      rename_i sb
      obtain ⟨sc, hpc, hpd⟩ := path_append_split hrest1
      cases hpd with
      | cons hrun hrest2 =>
        obtain ⟨_, hb1, _⟩ := step_acquire_stages hacq
        obtain ⟨hc1, _⟩ := step_run_stages hrun
        obtain ⟨u, v, huv⟩ := List.mem_iff_append.mp hl
        subst huv
        obtain ⟨s₁, hpu, hpv⟩ := path_append_split hpc
        cases hpv with
        | cons hlstep hpv2 =>
          rename_i smid
          obtain ⟨m₁, hm₁, hge₁⟩ := stage_mono_path hpu hb1
          have hub : ∀ m, stageAt smid i = some m → m ≤ 1 := by
            intro m hm
            obtain ⟨m₂, hm₂, hle⟩ := stage_mono_path hpv2 hm
            rw [hc1] at hm₂
            simp at hm₂
            omega
          cases l with
          | spawn j =>
            obtain ⟨_, hpre, _⟩ := step_spawn_stages ((show j = i from hidx) ▸ hlstep)
            rw [hpre] at hm₁
            exact Option.noConfusion hm₁
          | acquire j =>
            obtain ⟨hpre, _, _⟩ := step_acquire_stages ((show j = i from hidx) ▸ hlstep)
            rw [hpre] at hm₁
            simp at hm₁
            omega
          | runWork j =>
            obtain ⟨_, m₂, hpost, hge2, _⟩ := step_run_stages ((show j = i from hidx) ▸ hlstep)
            have := hub m₂ hpost
            omega
          | report j =>
            obtain ⟨_, hpost⟩ := step_report_stages ((show j = i from hidx) ▸ hlstep)
            have := hub 3 hpost
            omega
          | release j =>
            obtain ⟨_, hpost⟩ := step_release_stages ((show j = i from hidx) ▸ hlstep)
            have := hub 4 hpost
            omega
          | signal j =>
            obtain ⟨_, hpost⟩ := step_signal_stages ((show j = i from hidx) ▸ hlstep)
            have := hub 5 hpost
            omega

/-- A work function whose every call fails with error 9. -/
def demoFail : Nat → Option Nat := fun _ => some 9

/-- A work function whose every call succeeds. -/
def demoOk : Nat → Option Nat := fun _ => none

/-- A work function that fails with error 9 exactly on item 5. -/
def demoOne : Nat → Option Nat := fun a => if a = 5 then some 9 else none

/-- A complete concrete run of the dispatcher on the single item 5 with
capacity 1 and an always-succeeding work function. -/
theorem demo_path : Path [5] 1 demoOk (initState [5])
    [Label.spawn 0, Label.acquire 0, Label.runWork 0, Label.release 0, Label.signal 0]
    (⟨[(5, Pc.finished)], 0, none, 0, [0]⟩ : State Nat Nat) := by
  refine Path.cons (Step.spawn _ (by decide)) ?_
  refine Path.cons (Step.acquire _ 0 5 rfl (by decide)) ?_
  refine Path.cons (Step.runWork _ 0 5 rfl) ?_
  refine Path.cons (Step.release _ 0 5 rfl) ?_
  refine Path.cons (Step.signal _ 0 5 rfl) ?_
  exact Path.nil _

/-- Witness for claim C1 at a concrete input: two items, both failing. -/
theorem claim_C1_witness :
    1 ≤ 4 ∧ 2 ≤ List.countP (fun a => (demoFail a).isSome) [5, 6]
      ∧ ∃ r, Returns [5, 6] 4 demoFail r :=
  ⟨by decide, by decide, (claim_C1 [5, 6] 4 demoFail (by decide) (by decide)).1⟩

/-- Witness for claim C2 at a concrete input: the initial state with one
item and capacity 1. -/
theorem claim_C2_witness :
    holdersCount (initState [5] : State Nat Nat) ≤ 1 :=
  ((claim_C2 [5] 1 demoOk (by decide)) (initState [5])
    ⟨[], Path.nil _⟩).1

/-- Witness for claim C6 at a concrete input: one item whose work call fails
with error 9. -/
theorem claim_C6_witness :
    demoOne 5 = some 9 ∧ Returns [5] 1 demoOne (some 9) :=
  ⟨rfl, (claim_C6 [5] 1 demoOne 0 5 9 (by decide) rfl rfl
    (by intro j hj hne b hb; simp at hj; exact absurd hj hne)).1⟩

/-- Witness for claim C7 at a concrete input: one item whose work call
succeeds. -/
theorem claim_C7_witness :
    (∀ a ∈ [5], demoOk a = none) ∧ Returns [5] 1 demoOk none :=
  ⟨by intro a ha; rfl, (claim_C7 [5] 1 demoOk (by decide) (by intro a ha; rfl)).1⟩

/-- Witness for claim C9 at a concrete input: two identical complete runs on
one item. -/
theorem claim_C9_witness :
    (none : Option Nat).isNone = (none : Option Nat).isNone :=
  claim_C9 [5] 1 demoOk none none
    ⟨_, _, demo_path, ⟨rfl, by decide⟩, rfl⟩
    ⟨_, _, demo_path, ⟨rfl, by decide⟩, rfl⟩

end ConcurrencyMadeEasy
